import Mathlib

/-!
Shallow embedding of the core logic of the website-share repository: the
tag grouper (SiteCardGrid.vue), the search wrapper (useSearch.ts), the
theme-preference reader (storage.ts), the data loader and validator
(dataLoader.ts, App.vue) and the URL tracking-parameter sanitizer
(urlUtils.ts), together with theorems settling the specification claims.
-/

namespace WebsiteShare

/-- Site entry data model (`SiteMetadata` in src/types/index.ts). -/
structure SiteMetadata where
  id : Int
  title : String
  cover : String
  url : String
  tags : List String
  description : String
  content : Option String
  contentType : Option String
deriving DecidableEq, Repr

/-- Global configuration (`SiteConfig` in src/types/index.ts). -/
structure SiteConfig where
  siteTitle : String
  adminContact : String
deriving DecidableEq, Repr

/-- Shape of the catalog data file (`SiteDataFile` in src/types/index.ts). -/
structure SiteDataFile where
  config : SiteConfig
  sites : List SiteMetadata
deriving DecidableEq, Repr

/-! ## Tag grouper (`groupedSites` computed in SiteCardGrid.vue)

A JavaScript `Map` preserves key insertion order, so it is embedded as an
association list: setting an existing key updates it in place, a new key is
appended at the end. -/

/-- One step of `groups.get(primaryTag)!.push(site)` with the
`groups.set(primaryTag, [])` on first encounter. -/
def pushToGroup : List (String × List SiteMetadata) → String → SiteMetadata →
    List (String × List SiteMetadata)
  | [], tag, site => [(tag, [site])]
  | (k, l) :: rest, tag, site =>
    if k = tag then (k, l ++ [site]) :: rest
    else (k, l) :: pushToGroup rest tag site

/-- Body of the `props.sites.forEach` loop in `groupedSites`. -/
def addToGroups (groups : List (String × List SiteMetadata)) (site : SiteMetadata) :
    List (String × List SiteMetadata) :=
  match site.tags with
  | [] => groups
  | t :: _ => pushToGroup groups t site

/-- The `groupedSites` computed property of SiteCardGrid.vue. -/
def groupedSites (sites : List SiteMetadata) (groupByTag : Bool) :
    List (String × List SiteMetadata) :=
  if !groupByTag then [("全部", sites)]
  else sites.foldl addToGroups []

/-- The primary tag of an entry: the first element of its tag list. -/
def primaryTag (s : SiteMetadata) : Option String := s.tags.head?

/-- Deduplication keeping the first occurrence of each element. -/
def dedupFirst : List String → List String
  | [] => []
  | x :: xs => x :: dedupFirst (xs.filter (fun y => decide (y ≠ x)))
termination_by l => l.length
decreasing_by
  simp only [List.length_cons]
  exact Nat.lt_succ_of_le (List.length_filter_le _ _)

/-- Specification-side grouping, following the spec text: keys are the
primary tags in order of first appearance; each bucket is the input-order
sublist of entries having that primary tag; entries with empty tags occur
in no bucket. -/
def tagGroupsSpec (sites : List SiteMetadata) : List (String × List SiteMetadata) :=
  (dedupFirst (sites.filterMap primaryTag)).map
    (fun t => (t, sites.filter (fun s => decide (primaryTag s = some t))))

/-! ## Search wrapper (`searchSites` in src/composables/useSearch.ts)

The Fuse.js engine is an external library; it is abstracted as the
`fuzzySearch` argument, which the wrapper only reaches when the trimmed
query is non-empty and the data set is non-empty. -/

/-- JavaScript `String.prototype.trim()`: drop whitespace from both ends. -/
def jsTrim (s : String) : String :=
  ((s.toList.dropWhile Char.isWhitespace).reverse.dropWhile
    Char.isWhitespace).reverse.asString

/-- Embeds `searchSites` from useSearch.ts with the Fuse.js call abstracted. -/
def searchSites (fuzzySearch : List SiteMetadata → String → List SiteMetadata)
    (sites : List SiteMetadata) (query : String) : List SiteMetadata :=
  let trimmedQuery := jsTrim query
  if trimmedQuery = "" then sites
  else if sites.isEmpty then []
  else fuzzySearch sites trimmedQuery

/-! ## Theme preference (`getThemePreference` in src/utils/storage.ts)

`safeGetItem` reads the browser key-value store; its result (a string or
null) is the `stored` argument. -/

/-- Embeds `getThemePreference` from storage.ts. -/
def getThemePreference (stored : Option String) : String :=
  match stored with
  | some value =>
    if value = "light" ∨ value = "dark" ∨ value = "system" then value
    else "system"
  | none => "system"

/-! ## Load errors and the App.vue load routine -/

/-- The three error kinds of `DataLoadError` (src/types/index.ts). -/
inductive ErrorType where
  | networkError
  | parseError
  | validationError
deriving DecidableEq, Repr

/-- Embeds `DataLoadError`: the `field` member is only present on validation
errors, embedded as an `Option`. -/
structure DataLoadError where
  type : ErrorType
  message : String
  field : Option String
deriving DecidableEq, Repr

/-- Embeds `createDataLoadError` from dataLoader.ts: the `field` argument is kept
only for validation errors and only when truthy (non-empty). -/
def createDataLoadError (type : ErrorType) (message : String)
    (field : Option String) : DataLoadError :=
  match field with
  | some f =>
    if type = ErrorType.validationError ∧ f ≠ "" then ⟨type, message, some f⟩
    else ⟨type, message, none⟩
  | none => ⟨type, message, none⟩

/-- Embeds `getErrorMessage` from dataLoader.ts; a missing `field` prints as the
string "undefined" in the template literal. -/
def getErrorMessage (e : DataLoadError) : String :=
  match e.type with
  | ErrorType.networkError => "数据加载失败，请检查网络连接"
  | ErrorType.parseError => "数据格式错误，请联系管理员"
  | ErrorType.validationError => "数据验证失败: " ++ e.field.getD "undefined"

/-- The reactive state touched by `loadData` in App.vue. -/
structure AppState where
  siteConfig : SiteConfig
  sites : List SiteMetadata
  isLoading : Bool
  errorMessage : Option String
deriving DecidableEq, Repr

/-- Embeds `loadData` from App.vue: sets `isLoading` and clears `errorMessage`,
awaits `loadSiteData` (its result is the `result` argument), then either
installs the new config and sites or records the user-facing message. -/
def loadData (st : AppState) (result : Except DataLoadError SiteDataFile) :
    AppState :=
  let st1 : AppState := { st with isLoading := true, errorMessage := none }
  let st2 : AppState :=
    match result with
    | Except.ok d => { st1 with siteConfig := d.config, sites := d.sites }
    | Except.error e => { st1 with errorMessage := some (getErrorMessage e) }
  { st2 with isLoading := false }

/-! ## Validator (src/utils/dataLoader.ts)

The validators receive a parsed JSON value of unknown shape, embedded as
`JValue`. A missing object property (`undefined` in JavaScript) is
`Option.none`. -/

/-- Parsed JSON values. -/
inductive JValue where
  | null
  | bool (b : Bool)
  | num (n : Int)
  | str (s : String)
  | arr (elems : List JValue)
  | obj (fields : List (String × JValue))

/-- JavaScript truthiness of a parsed JSON value. -/
def jsTruthy : JValue → Bool
  | JValue.null => false
  | JValue.bool b => b
  | JValue.num n => n ≠ 0
  | JValue.str s => s ≠ ""
  | JValue.arr _ => true
  | JValue.obj _ => true

/-- Whether the value is object-typed in JavaScript: true for null, arrays, objects. -/
def jsTypeofObject : JValue → Bool
  | JValue.null => true
  | JValue.arr _ => true
  | JValue.obj _ => true
  | _ => false

/-- Property access `v[k]`; `none` is JavaScript `undefined`. -/
def getProp (v : JValue) (k : String) : Option JValue :=
  match v with
  | JValue.obj fields => fields.lookup k
  | _ => none

/-- The check that x is a string value, for a possibly-undefined value. -/
def isStringVal : Option JValue → Bool
  | some (JValue.str _) => true
  | _ => false

/-- The check that x is a number value, for a possibly-undefined value. -/
def isNumberVal : Option JValue → Bool
  | some (JValue.num _) => true
  | _ => false

/-- The `{ valid: boolean; error?: string }` result records. -/
structure ValidationResult where
  valid : Bool
  error : Option String
deriving DecidableEq, Repr

/-- The `for (const field of requiredStringFields)` loop of
`validateSiteMetadata`, returning the first failure. -/
def checkStringFields (siteObj : JValue) : List String → Option String
  | [] => none
  | f :: rest =>
    if !isStringVal (getProp siteObj f) then
      some ("字段 " ++ f ++ " 必须是字符串")
    else checkStringFields siteObj rest

/-- Embeds `validateSiteMetadata` from dataLoader.ts. -/
def validateSiteMetadata (site : Option JValue) : ValidationResult :=
  match site with
  | none => ⟨false, some "网站数据必须是对象"⟩
  | some siteObj =>
    if !(jsTruthy siteObj && jsTypeofObject siteObj) then
      ⟨false, some "网站数据必须是对象"⟩
    else if !isNumberVal (getProp siteObj "id") then
      ⟨false, some "字段 id 必须是数字"⟩
    else
      match checkStringFields siteObj ["title", "cover", "url", "description"] with
      | some err => ⟨false, some err⟩
      | none =>
        match getProp siteObj "tags" with
        | some (JValue.arr tags) =>
          if !(tags.all fun tag => match tag with
              | JValue.str _ => true
              | _ => false) then
            ⟨false, some "字段 tags 中的每个元素必须是字符串"⟩
          else
            match getProp siteObj "content" with
            | some (JValue.str _) => checkContentType siteObj
            | none => checkContentType siteObj
            | some _ => ⟨false, some "字段 content 必须是字符串"⟩
        | _ => ⟨false, some "字段 tags 必须是数组"⟩
where
  /-- The optional `contentType` check at the end of `validateSiteMetadata`. -/
  checkContentType (siteObj : JValue) : ValidationResult :=
    match getProp siteObj "contentType" with
    | none => ⟨true, none⟩
    | some (JValue.str "text") => ⟨true, none⟩
    | some (JValue.str "file") => ⟨true, none⟩
    | some _ => ⟨false, some "字段 contentType 必须是 \"text\" 或 \"file\""⟩

/-- Embeds `validateSiteConfig` from dataLoader.ts. -/
def validateSiteConfig (config : Option JValue) : ValidationResult :=
  match config with
  | none => ⟨false, some "配置数据必须是对象"⟩
  | some configObj =>
    if !(jsTruthy configObj && jsTypeofObject configObj) then
      ⟨false, some "配置数据必须是对象"⟩
    else if !isStringVal (getProp configObj "siteTitle") then
      ⟨false, some "字段 siteTitle 必须是字符串"⟩
    else if !isStringVal (getProp configObj "adminContact") then
      ⟨false, some "字段 adminContact 必须是字符串"⟩
    else ⟨true, none⟩

/-- A possibly-absent error string as a JavaScript template literal prints
it: `undefined` becomes the string "undefined". -/
def errString (e : Option String) : String :=
  match e with
  | some s => s
  | none => "undefined"

/-- The `for (let i = 0; ...)` loop of `validateSiteDataFile`, returning
the first per-site failure with its index. -/
def validateSitesFrom (i : Nat) : List JValue → Option String
  | [] => none
  | s :: rest =>
    match validateSiteMetadata (some s) with
    | ⟨true, _⟩ => validateSitesFrom (i + 1) rest
    | ⟨false, err⟩ => some ("网站 " ++ toString i ++ " 验证失败: " ++ errString err)

/-- Embeds `validateSiteDataFile` from dataLoader.ts. -/
def validateSiteDataFile (data : Option JValue) : ValidationResult :=
  match data with
  | none => ⟨false, some "数据文件必须是对象"⟩
  | some dataObj =>
    if !(jsTruthy dataObj && jsTypeofObject dataObj) then
      ⟨false, some "数据文件必须是对象"⟩
    else
      match validateSiteConfig (getProp dataObj "config") with
      | ⟨false, err⟩ => ⟨false, some ("配置验证失败: " ++ errString err)⟩
      | ⟨true, _⟩ =>
        match getProp dataObj "sites" with
        | some (JValue.arr sites) =>
          match validateSitesFrom 0 sites with
          | some err => ⟨false, some err⟩
          | none => ⟨true, none⟩
        | _ => ⟨false, some "sites 必须是数组"⟩

/-- The post-parse portion of `loadSiteData` from dataLoader.ts: run
`validateSiteDataFile` on the parsed body and either return the data or a
a validation error built by `createDataLoadError` with field "data" and
the recorded message, defaulted when absent or empty. -/
def loadSiteDataValidated (data : JValue) : Except DataLoadError JValue :=
  match validateSiteDataFile (some data) with
  | ⟨true, _⟩ => Except.ok data
  | ⟨false, err⟩ =>
    let msg :=
      match err with
      | some e => if e = "" then "数据验证失败" else e
      | none => "数据验证失败"
    Except.error (createDataLoadError ErrorType.validationError msg (some "data"))

/-- The `field` member of the error of a load result, if any. -/
def loadErrorField : Except DataLoadError JValue → Option String
  | Except.error e => e.field
  | Except.ok _ => none

/-- The error of a load result, if any. -/
def loadError : Except DataLoadError JValue → Option DataLoadError
  | Except.error e => some e
  | Except.ok _ => none

/-! ## URL sanitizer (src/utils/urlUtils.ts)

`cleanTrackingParams` and `hasTrackingParams` call the platform `URL` and
`URLSearchParams` classes. They are embedded by an explicit parser and
serializer over character lists: a URL splits at the first `#` into a
fragment, the part before it splits at the first `?` into a base and a
query, and the base splits at the first `:` into a scheme and the rest.
The query is a `&`-separated list of `name=value` pairs, and — as in the
WHATWG update steps run by `URLSearchParams.delete` — a query whose pair
list is empty serializes to no query at all. -/

/-- Split a character list at the first occurrence of `c`; `none` when `c`
does not occur. -/
def splitOnFirst (c : Char) : List Char → Option (List Char × List Char)
  | [] => none
  | x :: xs =>
    if x = c then some ([], xs)
    else
      match splitOnFirst c xs with
      | none => none
      | some (a, b) => some (x :: a, b)

/-- Split at every occurrence of `c`: the first field and the remaining
fields. -/
def splitAllCore (c : Char) : List Char → List Char × List (List Char)
  | [] => ([], [])
  | x :: xs =>
    let rest := splitAllCore c xs
    if x = c then ([], rest.1 :: rest.2)
    else (x :: rest.1, rest.2)

/-- All fields of a split at every occurrence of `c`. -/
def splitAll (c : Char) (l : List Char) : List (List Char) :=
  (splitAllCore c l).1 :: (splitAllCore c l).2

/-- One `name=value` field of a query string, split at the first `=`; a
field with no `=` is a name with empty value. -/
def parsePair (seg : List Char) : String × String :=
  match splitOnFirst '=' seg with
  | none => (seg.asString, "")
  | some (n, v) => (n.asString, v.asString)

/-- Parse a query string into its name-value pairs; empty fields are
skipped, as in the `application/x-www-form-urlencoded` parser. -/
def parseQuery (q : List Char) : List (String × String) :=
  ((splitAll '&' q).filter (fun seg => decide (seg ≠ []))).map parsePair

/-- Serialize one name-value pair as `name=value`. -/
def serializePair (p : String × String) : List Char :=
  p.1.toList ++ '=' :: p.2.toList

/-- Serialize a pair list as a `&`-separated query string. -/
def serializeQuery : List (String × String) → List Char
  | [] => []
  | [p] => serializePair p
  | p :: q :: ps => serializePair p ++ '&' :: serializeQuery (q :: ps)

/-- A parsed URL: scheme, the remainder of the base (authority and path),
the query pair list when a `?` is present, and the fragment when a `#` is
present. -/
structure URLRec where
  scheme : String
  rest : String
  query : Option (List (String × String))
  fragment : Option String
deriving DecidableEq, Repr

/-- Characters allowed after the first character of a URL scheme. -/
def isSchemeChar (c : Char) : Bool :=
  c.isAlphanum || c = '+' || c = '-' || c = '.'

/-- A scheme is one ASCII letter followed by scheme characters. -/
def schemeOK : List Char → Bool
  | [] => false
  | c :: cs => c.isAlpha && cs.all isSchemeChar

/-- Split off the fragment at the first `#`, if any. -/
def splitFragment (cs : List Char) : List Char × Option String :=
  match splitOnFirst '#' cs with
  | none => (cs, none)
  | some (b, f) => (b, some f.asString)

/-- Split off and parse the query at the first `?`, if any. -/
def splitQuery (cs : List Char) : List Char × Option (List (String × String)) :=
  match splitOnFirst '?' cs with
  | none => (cs, none)
  | some (b, q) => (b, some (parseQuery q))

/-- Split the base into scheme and remainder at the first `:` and check
the scheme; `none` when there is no `:` or the scheme is invalid. -/
def parseURLTail (base : List Char) (q : Option (List (String × String)))
    (f : Option String) : Option URLRec :=
  match splitOnFirst ':' base with
  | none => none
  | some (scheme, rest) =>
    if schemeOK scheme then some ⟨scheme.asString, rest.asString, q, f⟩
    else none

/-- Parse a URL string; `none` when the string has no valid scheme, in
which case the `URL` constructor throws. -/
def parseURL (s : String) : Option URLRec :=
  let fragSplit := splitFragment s.toList
  let querySplit := splitQuery fragSplit.1
  parseURLTail querySplit.1 querySplit.2 fragSplit.2

/-- Serialize a parsed URL back to a string. -/
def serializeURL (r : URLRec) : String :=
  r.scheme ++ ":" ++ r.rest ++
    (match r.query with
     | none => ""
     | some l => "?" ++ (serializeQuery l).asString) ++
    (match r.fragment with
     | none => ""
     | some f => "#" ++ f)

/-- The query pair list of a parsed URL; an absent query reads as the
empty `searchParams` list. -/
def queryList (r : URLRec) : List (String × String) :=
  r.query.getD []

/-- The tracking-parameter deny-list `TRACKING_PARAMS` of urlUtils.ts. -/
def TRACKING_PARAMS : List String :=
  ["utm_source", "utm_medium", "utm_campaign", "utm_term", "utm_content",
   "utm_id", "utm_source_platform", "utm_creative_format",
   "utm_marketing_tactic",
   "fbclid", "gclid", "gclsrc", "dclid", "msclkid", "twclid", "igshid",
   "mc_cid", "mc_eid",
   "ref", "ref_src", "ref_url", "source", "affiliate", "aff_id",
   "campaign_id", "ad_id", "click_id", "_ga", "_gl", "yclid", "wickedid",
   "wicked_source", "spm", "scm", "pvid", "algo_pvid", "algo_expid",
   "btsid", "ws_ab_test", "share_source", "share_medium"]

/-- The predicate keeping a query parameter: its name is not on the
deny-list, so the `forEach`-of-`delete` loop leaves it in place. -/
def keepParam (kv : String × String) : Bool :=
  !(TRACKING_PARAMS.contains kv.1)

/-- The query after the deletion loop: the kept pairs, or no query at all
when none remain (the WHATWG update steps set a query with an empty pair
list to null). -/
def cleanQuery (r : URLRec) : Option (List (String × String)) :=
  if ((queryList r).filter keepParam).isEmpty then none
  else some ((queryList r).filter keepParam)

/-- Embeds `cleanTrackingParams` from urlUtils.ts: parse, delete every deny-listed
parameter, serialize; an unparsable input is returned unchanged. After the
deletions the query is the serialization of the remaining pair list, absent
when that list is empty. -/
def cleanTrackingParams (url : String) : String :=
  match parseURL url with
  | none => url
  | some r => serializeURL { r with query := cleanQuery r }

/-- Embeds `hasTrackingParams` from urlUtils.ts: whether any deny-listed name
occurs among the query parameters of the URL; false on unparsable input. -/
def hasTrackingParams (url : String) : Bool :=
  match parseURL url with
  | none => false
  | some r =>
    TRACKING_PARAMS.any (fun p => (queryList r).any (fun kv => kv.1 == p))

/-- Well-formed query pair: the name is free of the `&`, `=`, `#`
delimiters and the value free of `&`, `#`. Pairs produced by `parseQuery`
satisfy this. -/
def wfPair (p : String × String) : Prop :=
  '&' ∉ p.1.toList ∧ '=' ∉ p.1.toList ∧ '#' ∉ p.1.toList ∧
    '&' ∉ p.2.toList ∧ '#' ∉ p.2.toList

/-- Well-formed parsed URL: valid scheme, a base remainder free of `?` and
`#`, and well-formed query pairs. URLs produced by `parseURL` satisfy
this, and serializing a well-formed URL parses back to it. -/
def wfURL (r : URLRec) : Prop :=
  schemeOK r.scheme.toList = true ∧
    '?' ∉ r.rest.toList ∧ '#' ∉ r.rest.toList ∧
    ∀ l, r.query = some l → ∀ p ∈ l, wfPair p

/-! ## Helper lemmas on strings and splitting -/

theorem asString_toList (s : String) : s.toList.asString = s := rfl

theorem toList_asString (l : List Char) : l.asString.toList = l := rfl

theorem toList_append (a b : String) : (a ++ b).toList = a.toList ++ b.toList := rfl

theorem asString_data (s : String) : s.data.asString = s := rfl

theorem data_asString (l : List Char) : l.asString.data = l := rfl

theorem splitOnFirst_eq_none {c : Char} {l : List Char} (h : c ∉ l) :
    splitOnFirst c l = none := by
  induction l with
  | nil => rfl
  | cons x xs ih =>
    rw [List.mem_cons, not_or] at h
    simp only [splitOnFirst, if_neg (show ¬ x = c from fun hx => h.1 hx.symm), ih h.2]

theorem mem_of_splitOnFirst_eq_none {c : Char} {l : List Char}
    (h : splitOnFirst c l = none) : c ∉ l := by
  induction l with
  | nil => simp
  | cons x xs ih =>
    by_cases hx : x = c
    · subst hx; simp [splitOnFirst] at h
    · simp only [splitOnFirst, if_neg hx] at h
      cases hs : splitOnFirst c xs with
      | none =>
        have := ih hs
        rw [List.mem_cons, not_or]
        exact ⟨fun hc => hx hc.symm, this⟩
      | some p => rw [hs] at h; simp at h

theorem splitOnFirst_append {c : Char} {a : List Char} (b : List Char) (h : c ∉ a) :
    splitOnFirst c (a ++ c :: b) = some (a, b) := by
  induction a with
  | nil => simp [splitOnFirst]
  | cons x xs ih =>
    rw [List.mem_cons, not_or] at h
    have h1 : ¬ x = c := fun hx => h.1 hx.symm
    simp only [List.cons_append, splitOnFirst, if_neg h1, List.append_eq]
    rw [ih h.2]

theorem splitOnFirst_eq_some {c : Char} {l a b : List Char}
    (h : splitOnFirst c l = some (a, b)) : l = a ++ c :: b ∧ c ∉ a := by
  induction l generalizing a b with
  | nil => simp [splitOnFirst] at h
  | cons x xs ih =>
    by_cases hx : x = c
    · subst hx
      simp only [splitOnFirst, if_pos rfl, Option.some_inj, Prod.mk.injEq] at h
      obtain ⟨rfl, rfl⟩ := h
      simp
    · simp only [splitOnFirst, if_neg hx] at h
      cases hs : splitOnFirst c xs with
      | none => rw [hs] at h; simp at h
      | some p =>
        obtain ⟨a2, b2⟩ := p
        rw [hs] at h
        simp only [Option.some_inj, Prod.mk.injEq] at h
        obtain ⟨h1, h2⟩ := h
        subst h1
        subst h2
        obtain ⟨hxs, hna⟩ := ih hs
        subst hxs
        refine ⟨rfl, ?_⟩
        rw [List.mem_cons, not_or]
        exact ⟨fun hc => hx hc.symm, hna⟩

theorem splitAllCore_not_mem {c : Char} {l : List Char} (h : c ∉ l) :
    splitAllCore c l = (l, []) := by
  induction l with
  | nil => rfl
  | cons x xs ih =>
    rw [List.mem_cons, not_or] at h
    have h1 : ¬ x = c := fun hx => h.1 hx.symm
    simp only [splitAllCore, ih h.2, if_neg h1]

theorem splitAllCore_append {c : Char} {a : List Char} (b : List Char) (h : c ∉ a) :
    splitAllCore c (a ++ c :: b) =
      (a, (splitAllCore c b).1 :: (splitAllCore c b).2) := by
  induction a with
  | nil => simp [splitAllCore]
  | cons x xs ih =>
    rw [List.mem_cons, not_or] at h
    have h1 : ¬ x = c := fun hx => h.1 hx.symm
    simp only [List.cons_append, splitAllCore, List.append_eq]
    rw [ih h.2]
    simp [if_neg h1]

theorem splitAll_not_mem {c : Char} {l : List Char} (h : c ∉ l) :
    splitAll c l = [l] := by
  simp [splitAll, splitAllCore_not_mem h]

theorem splitAll_append {c : Char} {a : List Char} (b : List Char) (h : c ∉ a) :
    splitAll c (a ++ c :: b) = a :: splitAll c b := by
  simp [splitAll, splitAllCore_append b h]

theorem splitAll_parts {c : Char} {l : List Char} {p : List Char}
    (hp : p ∈ splitAll c l) : c ∉ p ∧ ∀ x ∈ p, x ∈ l := by
  induction l generalizing p with
  | nil =>
    simp only [splitAll, splitAllCore, List.mem_singleton] at hp
    subst hp
    simp
  | cons y ys ih =>
    by_cases hy : y = c
    · subst hy
      simp only [splitAll, splitAllCore, if_pos rfl, List.mem_cons] at hp
      rcases hp with rfl | hp
      · simp
      · have := ih (p := p) (by simpa [splitAll] using hp)
        exact ⟨this.1, fun x hx => List.mem_cons_of_mem _ (this.2 x hx)⟩
    · simp only [splitAll, splitAllCore, if_neg hy, List.mem_cons] at hp
      rcases hp with rfl | hp
      · have hhead := ih (p := (splitAllCore c ys).1)
          (by simp [splitAll])
        refine ⟨?_, ?_⟩
        · rw [List.mem_cons, not_or]
          exact ⟨fun hc => hy hc.symm, hhead.1⟩
        · intro x hx
          rcases List.mem_cons.mp hx with rfl | hx2
          · exact List.mem_cons_self _ _
          · exact List.mem_cons_of_mem _ (hhead.2 x hx2)
      · have := ih (p := p) (by simp [splitAll, hp])
        exact ⟨this.1, fun x hx => List.mem_cons_of_mem _ (this.2 x hx)⟩

theorem serializePair_ne_nil (p : String × String) : serializePair p ≠ [] := by
  simp [serializePair]

theorem not_mem_serializePair {c : Char} {p : String × String} (hc : c ≠ '=')
    (h1 : c ∉ p.1.toList) (h2 : c ∉ p.2.toList) : c ∉ serializePair p := by
  simp only [serializePair, List.mem_append, List.mem_cons, not_or]
  exact ⟨h1, hc, h2⟩

theorem parsePair_serializePair {p : String × String} (h1 : '=' ∉ p.1.toList) :
    parsePair (serializePair p) = p := by
  unfold parsePair serializePair
  rw [splitOnFirst_append _ h1]
  rfl

theorem not_mem_serializeQuery {c : Char} (hca : c ≠ '&') (hce : c ≠ '=')
    {l : List (String × String)}
    (h : ∀ p ∈ l, c ∉ p.1.toList ∧ c ∉ p.2.toList) : c ∉ serializeQuery l := by
  induction l with
  | nil => simp [serializeQuery]
  | cons p ps ih =>
    cases ps with
    | nil =>
      have hp := h p (List.mem_cons_self _ _)
      exact not_mem_serializePair hce hp.1 hp.2
    | cons q ps2 =>
      have hp := h p (List.mem_cons_self _ _)
      have hrest : c ∉ serializeQuery (q :: ps2) :=
        ih fun r hr => h r (List.mem_cons_of_mem _ hr)
      simp only [serializeQuery, List.mem_append, List.mem_cons, not_or]
      exact ⟨not_mem_serializePair hce hp.1 hp.2, hca, hrest⟩

theorem parseQuery_serializeQuery {l : List (String × String)}
    (h : ∀ p ∈ l, wfPair p) : parseQuery (serializeQuery l) = l := by
  induction l with
  | nil => rfl
  | cons p ps ih =>
    have hp := h p (List.mem_cons_self _ _)
    obtain ⟨hp1, hp2, _, hp4, _⟩ := hp
    have hamp : '&' ∉ serializePair p :=
      not_mem_serializePair (by decide) hp1 hp4
    cases ps with
    | nil =>
      simp only [serializeQuery, parseQuery, splitAll_not_mem hamp]
      simp [serializePair_ne_nil, parsePair_serializePair hp2]
    | cons q ps2 =>
      have hrest := ih fun r hr => h r (List.mem_cons_of_mem _ hr)
      simp only [serializeQuery] at hrest ⊢
      simp only [parseQuery, splitAll_append _ hamp] at hrest ⊢
      simp only [List.filter_cons, decide_eq_true_eq]
      rw [if_pos (serializePair_ne_nil p)]
      simp only [List.map_cons, parsePair_serializePair hp2]
      rw [hrest]

theorem parseQuery_wf {q : List Char} (hq : '#' ∉ q) :
    ∀ p ∈ parseQuery q, wfPair p := by
  intro p hp
  simp only [parseQuery, List.mem_map, List.mem_filter, decide_eq_true_eq] at hp
  obtain ⟨seg, ⟨hseg, hne⟩, rfl⟩ := hp
  obtain ⟨hamp, hsub⟩ := splitAll_parts hseg
  have hhash : '#' ∉ seg := fun hx => hq (hsub _ hx)
  cases hs : splitOnFirst '=' seg with
  | none =>
    have hpp : parsePair seg = (seg.asString, "") := by
      unfold parsePair; rw [hs]
    have he : '=' ∉ seg := mem_of_splitOnFirst_eq_none hs
    rw [hpp]
    exact ⟨by simpa [toList_asString] using hamp,
           by simpa [toList_asString] using he,
           by simpa [toList_asString] using hhash,
           by exact List.not_mem_nil _, by exact List.not_mem_nil _⟩
  | some p2 =>
    obtain ⟨n, v⟩ := p2
    have hpp : parsePair seg = (n.asString, v.asString) := by
      unfold parsePair; rw [hs]
    obtain ⟨hseq, hn⟩ := splitOnFirst_eq_some hs
    subst hseq
    simp only [List.mem_append, List.mem_cons, not_or] at hamp hhash
    rw [hpp]
    exact ⟨by simpa [toList_asString] using hamp.1,
           by simpa [toList_asString] using hn,
           by simpa [toList_asString] using hhash.1,
           by simpa [toList_asString] using hamp.2.2,
           by simpa [toList_asString] using hhash.2.2⟩

theorem not_mem_of_schemeOK {l : List Char} (h : schemeOK l = true) {c : Char}
    (h1 : c.isAlpha = false) (h2 : isSchemeChar c = false) : c ∉ l := by
  cases l with
  | nil => simp
  | cons x xs =>
    simp only [schemeOK, Bool.and_eq_true, List.all_eq_true] at h
    intro hm
    rcases List.mem_cons.mp hm with rfl | hm2
    · rw [h.1] at h1; cases h1
    · have hx := h.2 _ hm2; rw [hx] at h2; cases h2

theorem wfURL_mk {sch rest : List Char} {q : Option (List (String × String))}
    {f : Option String}
    (hs : schemeOK sch = true) (h1 : '?' ∉ rest) (h2 : '#' ∉ rest)
    (hq : ∀ l, q = some l → ∀ p ∈ l, wfPair p) :
    wfURL ⟨sch.asString, rest.asString, q, f⟩ := by
  exact ⟨by simpa [toList_asString] using hs,
         by simpa [toList_asString] using h1,
         by simpa [toList_asString] using h2, hq⟩

theorem splitFragment_not_mem {cs : List Char} (h : '#' ∉ cs) :
    splitFragment cs = (cs, none) := by
  simp [splitFragment, splitOnFirst_eq_none h]

theorem splitFragment_append {a : List Char} (b : List Char) (h : '#' ∉ a) :
    splitFragment (a ++ '#' :: b) = (a, some b.asString) := by
  simp [splitFragment, splitOnFirst_append b h]

theorem splitQuery_not_mem {cs : List Char} (h : '?' ∉ cs) :
    splitQuery cs = (cs, none) := by
  simp [splitQuery, splitOnFirst_eq_none h]

theorem splitQuery_append {a : List Char} (b : List Char) (h : '?' ∉ a) :
    splitQuery (a ++ '?' :: b) = (a, some (parseQuery b)) := by
  simp [splitQuery, splitOnFirst_append b h]

theorem splitFragment_wf (cs : List Char) :
    '#' ∉ (splitFragment cs).1 ∧ ∀ x ∈ (splitFragment cs).1, x ∈ cs := by
  unfold splitFragment
  cases hs : splitOnFirst '#' cs with
  | none => exact ⟨mem_of_splitOnFirst_eq_none hs, fun x hx => hx⟩
  | some p =>
    obtain ⟨b, f⟩ := p
    obtain ⟨hcs, hb⟩ := splitOnFirst_eq_some hs
    subst hcs
    exact ⟨hb, fun x hx => by simp [List.mem_append, hx]⟩

theorem splitQuery_wf (cs : List Char) :
    '?' ∉ (splitQuery cs).1 ∧ (∀ x ∈ (splitQuery cs).1, x ∈ cs) ∧
      ('#' ∉ cs → ∀ l, (splitQuery cs).2 = some l → ∀ p ∈ l, wfPair p) := by
  unfold splitQuery
  cases hs : splitOnFirst '?' cs with
  | none =>
    exact ⟨mem_of_splitOnFirst_eq_none hs, fun x hx => hx, by simp⟩
  | some p =>
    obtain ⟨b, q⟩ := p
    obtain ⟨hcs, hb⟩ := splitOnFirst_eq_some hs
    subst hcs
    refine ⟨hb, fun x hx => by simp [List.mem_append, hx], ?_⟩
    intro hhash l hl
    simp only [Option.some_inj] at hl
    subst hl
    refine parseQuery_wf ?_
    intro hx
    exact hhash (by simp [List.mem_append, hx])

theorem parseURLTail_wf {base : List Char} {q : Option (List (String × String))}
    {f : Option String} {r : URLRec}
    (hb1 : '?' ∉ base) (hb2 : '#' ∉ base)
    (hq : ∀ l, q = some l → ∀ p ∈ l, wfPair p)
    (h : parseURLTail base q f = some r) : wfURL r := by
  cases hc : splitOnFirst ':' base with
  | none =>
    unfold parseURLTail at h
    rw [hc] at h
    cases h
  | some p =>
    obtain ⟨sch, rest⟩ := p
    have hstep : parseURLTail base q f =
        if schemeOK sch = true then some ⟨sch.asString, rest.asString, q, f⟩
        else none := by
      unfold parseURLTail
      rw [hc]
    rw [hstep] at h
    by_cases hso : schemeOK sch = true
    · rw [if_pos hso] at h
      obtain rfl := (Option.some_inj.mp h).symm
      obtain ⟨hbase, -⟩ := splitOnFirst_eq_some hc
      subst hbase
      rw [List.mem_append] at hb1 hb2
      push_neg at hb1 hb2
      have h1 : '?' ∉ rest := fun hx => hb1.2 (List.mem_cons_of_mem _ hx)
      have h2 : '#' ∉ rest := fun hx => hb2.2 (List.mem_cons_of_mem _ hx)
      exact wfURL_mk hso h1 h2 hq
    · rw [if_neg hso] at h; cases h

theorem parseURL_wf {s : String} {r : URLRec} (h : parseURL s = some r) :
    wfURL r := by
  simp only [parseURL] at h
  obtain ⟨hf1, hf2⟩ := splitFragment_wf s.toList
  obtain ⟨hq1, hq2, hq3⟩ := splitQuery_wf (splitFragment s.toList).1
  exact parseURLTail_wf hq1 (fun hx => hf1 (hq2 _ hx)) (hq3 hf1) h

theorem parseURLTail_mk {sch rest : List Char}
    (q : Option (List (String × String))) (f : Option String)
    (hs : schemeOK sch = true) :
    parseURLTail (sch ++ ':' :: rest) q f =
      some ⟨sch.asString, rest.asString, q, f⟩ := by
  have hc : ':' ∉ sch := not_mem_of_schemeOK hs (by decide) (by decide)
  unfold parseURLTail
  rw [splitOnFirst_append _ hc]
  show (if schemeOK sch = true then
      some (URLRec.mk sch.asString rest.asString q f) else none) = _
  rw [if_pos hs]

theorem parseURL_serializeURL {r : URLRec} (h : wfURL r) :
    parseURL (serializeURL r) = some r := by
  obtain ⟨sch, rest, q, f⟩ := r
  obtain ⟨hsch, hr1, hr2, hq⟩ := h
  simp only at hsch hr1 hr2 hq
  have hs_c : ':' ∉ sch.toList := not_mem_of_schemeOK hsch (by decide) (by decide)
  have hs_q : '?' ∉ sch.toList := not_mem_of_schemeOK hsch (by decide) (by decide)
  have hs_h : '#' ∉ sch.toList := not_mem_of_schemeOK hsch (by decide) (by decide)
  have hbq : '?' ∉ sch.toList ++ ':' :: rest.toList := by
    simp only [List.mem_append, List.mem_cons, not_or]
    exact ⟨hs_q, by decide, hr1⟩
  have hbh : '#' ∉ sch.toList ++ ':' :: rest.toList := by
    simp only [List.mem_append, List.mem_cons, not_or]
    exact ⟨hs_h, by decide, hr2⟩
  cases q with
  | none =>
    cases f with
    | none =>
      have hL : (serializeURL ⟨sch, rest, none, none⟩).toList =
          sch.toList ++ ':' :: rest.toList := by
        simp [serializeURL, toList_append, data_asString]
      simp only [parseURL, hL, splitFragment_not_mem hbh,
        splitQuery_not_mem hbq]
      rw [parseURLTail_mk none none hsch]
      simp [asString_toList, asString_data, data_asString]
    | some fr =>
      have hL : (serializeURL ⟨sch, rest, none, some fr⟩).toList =
          (sch.toList ++ ':' :: rest.toList) ++ '#' :: fr.toList := by
        simp [serializeURL, toList_append, data_asString]
      simp only [parseURL, hL, splitFragment_append _ hbh,
        splitQuery_not_mem hbq]
      rw [parseURLTail_mk none (some fr.toList.asString) hsch]
      simp [asString_toList, asString_data, data_asString]
  | some l =>
    have hql : ∀ p ∈ l, wfPair p := hq l rfl
    have hsq_h : '#' ∉ serializeQuery l :=
      not_mem_serializeQuery (by decide) (by decide)
        (fun p hp => ⟨(hql p hp).2.2.1, (hql p hp).2.2.2.2⟩)
    have hbase_h : '#' ∉ (sch.toList ++ ':' :: rest.toList) ++
        '?' :: serializeQuery l := by
      simp only [List.mem_append, List.mem_cons, not_or]
      exact ⟨⟨hs_h, by decide, hr2⟩, by decide, hsq_h⟩
    cases f with
    | none =>
      have hL : (serializeURL ⟨sch, rest, some l, none⟩).toList =
          (sch.toList ++ ':' :: rest.toList) ++ '?' :: serializeQuery l := by
        simp [serializeURL, toList_append, data_asString]
      simp only [parseURL, hL, splitFragment_not_mem hbase_h,
        splitQuery_append _ hbq, parseQuery_serializeQuery hql]
      rw [parseURLTail_mk (some l) none hsch]
      simp [asString_toList, asString_data, data_asString]
    | some fr =>
      have hL : (serializeURL ⟨sch, rest, some l, some fr⟩).toList =
          ((sch.toList ++ ':' :: rest.toList) ++ '?' :: serializeQuery l) ++
            '#' :: fr.toList := by
        simp [serializeURL, toList_append, data_asString]
      simp only [parseURL, hL, splitFragment_append _ hbase_h,
        splitQuery_append _ hbq, parseQuery_serializeQuery hql]
      rw [parseURLTail_mk (some l) (some fr.toList.asString) hsch]
      simp [asString_toList, asString_data, data_asString]

theorem cleanTrackingParams_eq_serialize {url : String} {r : URLRec}
    (h : parseURL url = some r) :
    cleanTrackingParams url = serializeURL { r with query := cleanQuery r } := by
  unfold cleanTrackingParams
  rw [h]

theorem wfURL_clean {r : URLRec} (h : wfURL r) :
    wfURL { r with query := cleanQuery r } := by
  obtain ⟨h1, h2, h3, h4⟩ := h
  refine ⟨h1, h2, h3, ?_⟩
  intro l hl p hp
  unfold cleanQuery at hl
  by_cases hempty : ((queryList r).filter keepParam).isEmpty
  · rw [if_pos hempty] at hl; cases hl
  · rw [if_neg hempty] at hl
    obtain rfl := (Option.some_inj.mp hl).symm
    have hp2 := List.mem_of_mem_filter hp
    cases hr : r.query with
    | none =>
      rw [queryList, hr] at hp2
      cases hp2
    | some l0 =>
      refine h4 l0 hr p ?_
      rwa [queryList, hr] at hp2

theorem queryList_clean (r : URLRec) :
    queryList { r with query := cleanQuery r } =
      (queryList r).filter keepParam := by
  show (cleanQuery r).getD [] = _
  unfold cleanQuery
  by_cases hempty : ((queryList r).filter keepParam).isEmpty
  · rw [if_pos hempty]
    rw [List.isEmpty_iff] at hempty
    rw [hempty]
    rfl
  · rw [if_neg hempty]
    rfl

/-- C8. For every input string that is not a syntactically valid URL
(`parseURL` fails, where the `URL` constructor would throw),
`cleanTrackingParams` returns the input unchanged; the `catch` branch makes
the function total, so no error escapes. -/
theorem C8_theorem (url : String) (h : parseURL url = none) :
    cleanTrackingParams url = url := by
  unfold cleanTrackingParams
  rw [h]

theorem C8_witness : parseURL "not a url" = none ∧
    cleanTrackingParams "not a url" = "not a url" :=
  ⟨by decide, C8_theorem "not a url" (by decide)⟩

/-- C6. Sanitization is idempotent on every URL string, valid or not:
cleaning an already-cleaned URL changes nothing. -/
theorem C6_theorem (url : String) :
    cleanTrackingParams (cleanTrackingParams url) = cleanTrackingParams url := by
  cases hp : parseURL url with
  | none =>
    have h1 : cleanTrackingParams url = url := by
      unfold cleanTrackingParams; rw [hp]
    rw [h1, h1]
  | some r =>
    have hwf := parseURL_wf hp
    rw [cleanTrackingParams_eq_serialize hp]
    have hp2 := parseURL_serializeURL (wfURL_clean hwf)
    rw [cleanTrackingParams_eq_serialize hp2]
    have hfix : ((queryList { r with query := cleanQuery r }).filter keepParam) =
        (queryList r).filter keepParam := by
      rw [queryList_clean r]
      exact List.filter_eq_self.mpr fun a ha => (List.mem_filter.mp ha).2
    have hq2 : cleanQuery { r with query := cleanQuery r } = cleanQuery r := by
      conv_lhs => rw [cleanQuery]
      rw [hfix]
      rw [cleanQuery]
    congr 1
    rw [hq2]

/-- C5. On every syntactically valid URL, sanitization removes exactly the
deny-listed query parameters: the cleaned URL parses to a record with the
same scheme, base remainder and fragment, whose query pairs are the
original pairs with the deny-listed names filtered out, in order, every
other pair untouched. -/
theorem C5_theorem (url : String) (r : URLRec) (h : parseURL url = some r) :
    ∃ r2, parseURL (cleanTrackingParams url) = some r2 ∧
      r2.scheme = r.scheme ∧ r2.rest = r.rest ∧ r2.fragment = r.fragment ∧
      queryList r2 = (queryList r).filter keepParam := by
  have hwf := parseURL_wf h
  refine ⟨{ r with query := cleanQuery r }, ?_, rfl, rfl, rfl, queryList_clean r⟩
  rw [cleanTrackingParams_eq_serialize h]
  exact parseURL_serializeURL (wfURL_clean hwf)

theorem C5_witness :
    cleanTrackingParams "https://a.com/?utm_source=x&keep=1" =
      "https://a.com/?keep=1" ∧
    parseURL "https://a.com/?utm_source=x&keep=1" =
      some ⟨"https", "//a.com/", some [("utm_source", "x"), ("keep", "1")], none⟩ ∧
    ∃ r2, parseURL (cleanTrackingParams "https://a.com/?utm_source=x&keep=1") =
        some r2 ∧
      r2.scheme = "https" ∧ r2.rest = "//a.com/" ∧ r2.fragment = none ∧
      queryList r2 =
        [("utm_source", "x"), ("keep", "1")].filter keepParam :=
  ⟨by decide, by decide,
    C5_theorem "https://a.com/?utm_source=x&keep=1"
      ⟨"https", "//a.com/", some [("utm_source", "x"), ("keep", "1")], none⟩
      (by decide)⟩

/-- C1 counterexample. The claimed equivalence
`hasTrackingParams url = (cleanTrackingParams url ≠ url)` fails on the
syntactically valid URL "https://a.com/?": it has no tracking parameters,
yet sanitization rewrites it to "https://a.com/" because the empty query is
dropped when the parameter list is re-serialized. -/
theorem C1_counterexample :
    hasTrackingParams "https://a.com/?" = false ∧
      cleanTrackingParams "https://a.com/?" ≠ "https://a.com/?" := by
  constructor
  · decide
  · decide

/-- C1 (amended). Only the forward direction holds: whenever
`hasTrackingParams url` is true, sanitization changes the URL. The converse
fails for valid URLs that are not already in serialized normal form. -/
theorem C1_theorem (url : String) (h : hasTrackingParams url = true) :
    cleanTrackingParams url ≠ url := by
  cases hp : parseURL url with
  | none =>
    unfold hasTrackingParams at h
    rw [hp] at h
    cases h
  | some r =>
    unfold hasTrackingParams at h
    rw [hp] at h
    simp only [List.any_eq_true, beq_iff_eq] at h
    obtain ⟨pname, hpmem, kv, hkvmem, hkveq⟩ := h
    intro heq
    have hwf := parseURL_wf hp
    have h1 := cleanTrackingParams_eq_serialize hp
    rw [heq] at h1
    have hp2 := parseURL_serializeURL (wfURL_clean hwf)
    rw [← h1, hp] at hp2
    have hcontains : TRACKING_PARAMS.contains kv.1 = true := by
      rw [hkveq]
      exact List.elem_iff.mpr hpmem
    have hkeep : keepParam kv = false := by
      rw [keepParam, hcontains]
      rfl
    have hrq : r.query =
        (if ((queryList r).filter keepParam).isEmpty then none
         else some ((queryList r).filter keepParam)) := by
      have := Option.some_inj.mp hp2
      exact congrArg URLRec.query this
    cases hq : r.query with
    | none =>
      rw [queryList, hq] at hkvmem
      cases hkvmem
    | some l0 =>
      rw [hq] at hrq
      by_cases hempty : ((queryList r).filter keepParam).isEmpty
      · rw [if_pos hempty] at hrq
        cases hrq
      · rw [if_neg hempty] at hrq
        have hl0 : l0 = (queryList r).filter keepParam :=
          Option.some_inj.mp hrq
        have hkv2 : kv ∈ (queryList r).filter keepParam := by
          rw [← hl0]
          rwa [queryList, hq] at hkvmem
        have := (List.mem_filter.mp hkv2).2
        rw [hkeep] at this
        cases this

theorem C1_witness :
    hasTrackingParams "https://a.com/?utm_source=x" = true ∧
      cleanTrackingParams "https://a.com/?utm_source=x" ≠
        "https://a.com/?utm_source=x" :=
  ⟨by decide, C1_theorem "https://a.com/?utm_source=x" (by decide)⟩

/-! ## Grouping lemmas -/

theorem mem_dedupFirst {a : String} {l : List String} :
    a ∈ dedupFirst l ↔ a ∈ l := by
  induction l using dedupFirst.induct with
  | case1 => simp [dedupFirst]
  | case2 t tail ih =>
    rw [dedupFirst]
    simp only [List.mem_cons, ih, List.mem_filter, decide_eq_true_eq]
    constructor
    · rintro (rfl | ⟨h1, _⟩)
      · exact Or.inl rfl
      · exact Or.inr h1
    · rintro (rfl | h1)
      · exact Or.inl rfl
      · by_cases hx : a = t
        · exact Or.inl hx
        · exact Or.inr ⟨h1, hx⟩

theorem dedupFirst_nodup (l : List String) : (dedupFirst l).Nodup := by
  induction l using dedupFirst.induct with
  | case1 => simp [dedupFirst]
  | case2 t tail ih =>
    rw [dedupFirst]
    refine List.nodup_cons.mpr ⟨?_, ih⟩
    intro hmem
    rw [mem_dedupFirst] at hmem
    have := (List.mem_filter.mp hmem).2
    simp at this

theorem dedupFirst_append_mem {t : String} : ∀ {l : List String}, t ∈ l →
    dedupFirst (l ++ [t]) = dedupFirst l := by
  intro l
  induction l using dedupFirst.induct with
  | case1 => intro h; cases h
  | case2 x tail ih =>
    intro h
    rw [List.cons_append, dedupFirst, dedupFirst, List.filter_append,
      List.cons_inj_right]
    by_cases hx : t = x
    · subst hx
      have hsingle : List.filter (fun y => decide (y ≠ t)) [t] = [] := by simp
      rw [hsingle, List.append_nil]
    · have ht : t ∈ tail := (List.mem_cons.mp h).resolve_left hx
      have hsingle : List.filter (fun y => decide (y ≠ x)) [t] = [t] := by
        simp [hx]
      rw [hsingle]
      exact ih (List.mem_filter.mpr ⟨ht, by simp [hx]⟩)

theorem dedupFirst_append_not_mem {t : String} : ∀ {l : List String}, t ∉ l →
    dedupFirst (l ++ [t]) = dedupFirst l ++ [t] := by
  intro l
  induction l using dedupFirst.induct with
  | case1 =>
    intro _
    simp [dedupFirst]
  | case2 x tail ih =>
    intro h
    rw [List.mem_cons, not_or] at h
    rw [List.cons_append, dedupFirst, dedupFirst, List.filter_append]
    have hsingle : List.filter (fun y => decide (y ≠ x)) [t] = [t] := by
      simp [h.1]
    rw [hsingle]
    rw [ih (fun hmem => h.2 (List.mem_of_mem_filter hmem))]
    rw [List.cons_append]

theorem pushToGroup_keys_not_mem {t : String} {s : SiteMetadata} :
    ∀ {gs : List (String × List SiteMetadata)}, (∀ p ∈ gs, p.1 ≠ t) →
      pushToGroup gs t s = gs ++ [(t, [s])] := by
  intro gs
  induction gs with
  | nil => intro _; rfl
  | cons p ps ih =>
    intro h
    obtain ⟨k, l⟩ := p
    have hk : k ≠ t := h (k, l) (List.mem_cons_self _ _)
    simp only [pushToGroup, List.cons_append]
    rw [if_neg hk]
    rw [ih fun q hq => h q (List.mem_cons_of_mem _ hq)]

theorem pushToGroup_keys_mem {t : String} {s : SiteMetadata} :
    ∀ {gs : List (String × List SiteMetadata)},
      (gs.map Prod.fst).Nodup → t ∈ gs.map Prod.fst →
      pushToGroup gs t s =
        gs.map (fun p => if p.1 = t then (p.1, p.2 ++ [s]) else p) := by
  intro gs
  induction gs with
  | nil => intro _ hmem; cases hmem
  | cons p ps ih =>
    intro hnd hmem
    obtain ⟨k, l⟩ := p
    simp only [List.map_cons] at hnd
    obtain ⟨hk1, hk2⟩ := List.nodup_cons.mp hnd
    by_cases hk : k = t
    · subst hk
      simp only [pushToGroup, List.map_cons, eq_self_iff_true, if_true]
      rw [List.cons_inj_right]
      have : ∀ q ∈ ps, (if (Prod.fst q) = k then ((Prod.fst q), (Prod.snd q) ++ [s])
          else q) = q := by
        intro q hq
        rw [if_neg]
        intro hqk
        exact hk1 (hqk ▸ List.mem_map_of_mem Prod.fst hq)
      rw [List.map_congr_left this, List.map_id'']
      exact fun _ => rfl
    · have ht : t ∈ ps.map Prod.fst := by
        rcases List.mem_cons.mp hmem with h1 | h2
        · exact absurd h1.symm hk
        · exact h2
      simp only [pushToGroup, List.map_cons]
      rw [if_neg hk, if_neg hk]
      rw [List.cons_inj_right]
      exact ih hk2 ht

theorem tagGroupsSpec_keys (l : List SiteMetadata) :
    (tagGroupsSpec l).map Prod.fst = dedupFirst (l.filterMap primaryTag) := by
  unfold tagGroupsSpec
  rw [List.map_map]
  exact (List.map_congr_left fun a _ => rfl).trans (List.map_id _)

theorem filter_primary_eq_nil {t : String} {l : List SiteMetadata}
    (h : t ∉ l.filterMap primaryTag) :
    l.filter (fun s2 => decide (primaryTag s2 = some t)) = [] := by
  rw [List.filter_eq_nil_iff]
  intro a ha hpa
  rw [decide_eq_true_eq] at hpa
  exact h (List.mem_filterMap.mpr ⟨a, ha, hpa⟩)

theorem addToGroups_spec (pfx : List SiteMetadata) (s : SiteMetadata) :
    addToGroups (tagGroupsSpec pfx) s = tagGroupsSpec (pfx ++ [s]) := by
  cases htags : s.tags with
  | nil =>
    have hpt : primaryTag s = none := by simp [primaryTag, htags]
    have hadd : addToGroups (tagGroupsSpec pfx) s = tagGroupsSpec pfx := by
      unfold addToGroups
      rw [htags]
    rw [hadd]
    unfold tagGroupsSpec
    rw [List.filterMap_append]
    have hfs : List.filterMap primaryTag [s] = [] := by
      simp [List.filterMap_cons, hpt]
    rw [hfs, List.append_nil]
    refine List.map_congr_left fun t _ => ?_
    rw [List.filter_append]
    have hone : List.filter (fun s2 => decide (primaryTag s2 = some t)) [s] = [] := by
      simp [List.filter_cons, hpt]
    rw [hone, List.append_nil]
  | cons t ts =>
    have hpt : primaryTag s = some t := by simp [primaryTag, htags]
    have hone_eq : List.filter (fun s2 => decide (primaryTag s2 = some t)) [s] =
        [s] := by
      simp [List.filter_cons, hpt]
    have hone_ne : ∀ a : String, a ≠ t →
        List.filter (fun s2 => decide (primaryTag s2 = some a)) [s] = [] := by
      intro a hat
      simp only [List.filter_cons, List.filter_nil, hpt]
      rw [if_neg]
      simp only [decide_eq_true_eq, Option.some_inj]
      exact fun h2 => hat h2.symm
    have hadd : addToGroups (tagGroupsSpec pfx) s =
        pushToGroup (tagGroupsSpec pfx) t s := by
      unfold addToGroups
      rw [htags]
    rw [hadd]
    have hfs : List.filterMap primaryTag [s] = [t] := by
      simp [List.filterMap_cons, hpt]
    have hspec : tagGroupsSpec (pfx ++ [s]) =
        (dedupFirst (pfx.filterMap primaryTag ++ [t])).map
          (fun t2 => (t2, (pfx ++ [s]).filter
            (fun s2 => decide (primaryTag s2 = some t2)))) := by
      unfold tagGroupsSpec
      rw [List.filterMap_append, hfs]
    rw [hspec]
    by_cases hmem : t ∈ pfx.filterMap primaryTag
    · rw [dedupFirst_append_mem hmem]
      rw [pushToGroup_keys_mem
        (by rw [tagGroupsSpec_keys]; exact dedupFirst_nodup _)
        (by rw [tagGroupsSpec_keys, mem_dedupFirst]; exact hmem)]
      unfold tagGroupsSpec
      rw [List.map_map]
      refine List.map_congr_left fun a _ => ?_
      by_cases hat : a = t
      · subst hat
        simp only [Function.comp_apply, eq_self_iff_true, if_true,
          List.filter_append, hone_eq]
      · simp only [Function.comp_apply, List.filter_append, hone_ne a hat,
          List.append_nil, if_neg hat]
    · rw [dedupFirst_append_not_mem hmem]
      have hknm : ∀ p ∈ tagGroupsSpec pfx, p.1 ≠ t := by
        intro p hp hp1
        have hmp := List.mem_map_of_mem Prod.fst hp
        rw [tagGroupsSpec_keys, mem_dedupFirst] at hmp
        exact hmem (hp1 ▸ hmp)
      rw [pushToGroup_keys_not_mem hknm]
      rw [List.map_append, List.map_singleton]
      congr 1
      · unfold tagGroupsSpec
        refine List.map_congr_left fun a ha => ?_
        have hat : a ≠ t := by
          intro h2
          subst h2
          exact hmem (mem_dedupFirst.mp ha)
        rw [List.filter_append, hone_ne a hat, List.append_nil]
      · rw [List.filter_append, filter_primary_eq_nil hmem, hone_eq,
          List.nil_append]

theorem foldl_addToGroups : ∀ (rest pfx : List SiteMetadata),
    rest.foldl addToGroups (tagGroupsSpec pfx) = tagGroupsSpec (pfx ++ rest) := by
  intro rest
  induction rest with
  | nil =>
    intro pfx
    simp
  | cons s rest ih =>
    intro pfx
    rw [List.foldl_cons, addToGroups_spec, ih (pfx ++ [s])]
    simp

/-- C9. Grouping with `groupByTag = false` yields exactly one group, named
"全部", containing every input entry in input order. -/
theorem C9_theorem (sites : List SiteMetadata) :
    groupedSites sites false = [("全部", sites)] := rfl

/-- C3. Grouping with `groupByTag = true` equals the specification
grouping: keys are the primary tags (`tags[0]`) in first-appearance order;
each group is the input-order sublist of entries whose primary tag is the
key (so relative order is preserved); entries with empty `tags` appear in
no group. -/
theorem C3_theorem (sites : List SiteMetadata) :
    groupedSites sites true = tagGroupsSpec sites := by
  have h0 : tagGroupsSpec [] = ([] : List (String × List SiteMetadata)) := by
    unfold tagGroupsSpec
    simp [dedupFirst]
  have h1 : groupedSites sites true = sites.foldl addToGroups [] := rfl
  rw [h1, ← h0, foldl_addToGroups sites [], List.nil_append]

/-- C2 counterexample. On input whose config lacks `siteTitle`, the load
does fail with a VALIDATION_ERROR, but its `field` member is always the
literal string "data", not the offending field path "siteTitle"; the
offending field is named only inside the message. -/
theorem C2_counterexample :
    loadSiteDataValidated (JValue.obj
      [("config", JValue.obj [("adminContact", JValue.str "a")]),
       ("sites", JValue.arr [])]) =
      Except.error ⟨ErrorType.validationError,
        "配置验证失败: 字段 siteTitle 必须是字符串", some "data"⟩ ∧
    (some "data" : Option String) ≠ some "siteTitle" := by
  exact ⟨rfl, by decide⟩

/-- C2 (amended). For every parsed JSON object whose `config` member is an
object without a string `siteTitle`, the load fails with a
VALIDATION_ERROR whose human-readable message names the first offending
field (`siteTitle`, expected string) and nothing else — errors are not
aggregated — while the `field` member of the error is always "data". -/
theorem C2_theorem (d : JValue) (c : JValue)
    (hobj : (jsTruthy d && jsTypeofObject d) = true)
    (hconf : getProp d "config" = some c)
    (hcobj : (jsTruthy c && jsTypeofObject c) = true)
    (htitle : isStringVal (getProp c "siteTitle") = false) :
    loadSiteDataValidated d =
      Except.error ⟨ErrorType.validationError,
        "配置验证失败: 字段 siteTitle 必须是字符串", some "data"⟩ := by
  have hvc : validateSiteConfig (getProp d "config") =
      ⟨false, some "字段 siteTitle 必须是字符串"⟩ := by
    rw [hconf]
    simp [validateSiteConfig, hcobj, htitle]
  have hvd : validateSiteDataFile (some d) =
      ⟨false, some "配置验证失败: 字段 siteTitle 必须是字符串"⟩ := by
    simp [validateSiteDataFile, hobj, hvc, errString]
  simp [loadSiteDataValidated, hvd, createDataLoadError]

theorem C2_witness :
    loadSiteDataValidated (JValue.obj
      [("config", JValue.obj [("siteTitle", JValue.num 5),
        ("adminContact", JValue.num 6)]), ("sites", JValue.arr [])]) =
      Except.error ⟨ErrorType.validationError,
        "配置验证失败: 字段 siteTitle 必须是字符串", some "data"⟩ :=
  C2_theorem
    (JValue.obj [("config", JValue.obj [("siteTitle", JValue.num 5),
      ("adminContact", JValue.num 6)]), ("sites", JValue.arr [])])
    (JValue.obj [("siteTitle", JValue.num 5), ("adminContact", JValue.num 6)])
    rfl rfl rfl rfl

/-- C4. Searching with a query that trims to the empty string returns the
input entries unchanged (exact passthrough, regardless of the fuzzy
engine), and searching an empty entry list returns the empty list for
every query without reaching the fuzzy engine. -/
theorem C4_theorem (fuzzySearch : List SiteMetadata → String → List SiteMetadata)
    (sites : List SiteMetadata) (query : String) :
    (jsTrim query = "" → searchSites fuzzySearch sites query = sites) ∧
      searchSites fuzzySearch [] query = [] := by
  constructor
  · intro h
    simp only [searchSites]
    rw [if_pos h]
  · simp only [searchSites]
    by_cases h : jsTrim query = ""
    · rw [if_pos h]
    · rw [if_neg h, if_pos]
      rfl

theorem C4_witness :
    searchSites (fun s _ => s) [⟨1, "t", "", "", ["a"], "d", none, none⟩] " " =
      [⟨1, "t", "", "", ["a"], "d", none, none⟩] ∧
    searchSites (fun s _ => s) [] "q" = [] :=
  ⟨(C4_theorem (fun s _ => s) [⟨1, "t", "", "", ["a"], "d", none, none⟩] " ").1
      (by decide),
   (C4_theorem (fun s _ => s) [] "q").2⟩

/-- C7. A failed load leaves the previous site list and config exactly as
they were, records only the user-facing message and clears the loading
flag; a successful load installs the full new config and site list and
clears the error — there is never a partially populated catalog. -/
theorem C7_theorem (st : AppState) (e : DataLoadError) (d : SiteDataFile) :
    (loadData st (Except.error e)).sites = st.sites ∧
    (loadData st (Except.error e)).siteConfig = st.siteConfig ∧
    (loadData st (Except.error e)).errorMessage = some (getErrorMessage e) ∧
    (loadData st (Except.error e)).isLoading = false ∧
    (loadData st (Except.ok d)).sites = d.sites ∧
    (loadData st (Except.ok d)).siteConfig = d.config ∧
    (loadData st (Except.ok d)).errorMessage = none ∧
    (loadData st (Except.ok d)).isLoading = false :=
  ⟨rfl, rfl, rfl, rfl, rfl, rfl, rfl, rfl⟩

/-- C10. `getThemePreference` returns "system" for every stored value that
is not exactly "light", "dark" or "system" (absence included), so the
preference read from storage is always one of the three valid values. -/
theorem C10_theorem (stored : Option String) :
    ((stored ≠ some "light" ∧ stored ≠ some "dark" ∧ stored ≠ some "system") →
      getThemePreference stored = "system") ∧
    (getThemePreference stored = "light" ∨ getThemePreference stored = "dark" ∨
      getThemePreference stored = "system") := by
  cases stored with
  | none => exact ⟨fun _ => rfl, Or.inr (Or.inr rfl)⟩
  | some v =>
    have hg : getThemePreference (some v) =
        if v = "light" ∨ v = "dark" ∨ v = "system" then v else "system" := rfl
    rw [hg]
    by_cases h : v = "light" ∨ v = "dark" ∨ v = "system"
    · rw [if_pos h]
      refine ⟨?_, ?_⟩
      · intro hne
        rcases h with h | h | h
        · exact absurd (congrArg some h) hne.1
        · exact absurd (congrArg some h) hne.2.1
        · exact absurd (congrArg some h) hne.2.2
      · rcases h with h | h | h
        · exact Or.inl h
        · exact Or.inr (Or.inl h)
        · exact Or.inr (Or.inr h)
    · rw [if_neg h]
      exact ⟨fun _ => rfl, Or.inr (Or.inr rfl)⟩

theorem C10_witness :
    getThemePreference (some "auto") = "system" ∧
    (getThemePreference none = "light" ∨ getThemePreference none = "dark" ∨
      getThemePreference none = "system") :=
  ⟨(C10_theorem (some "auto")).1 (by decide), (C10_theorem none).2⟩

end WebsiteShare
